import Mathlib

/-!
Verification of the `nbitmask` bitmask library.

The embedding is a shallow translation of `src/lib.rs`, `src/bit_storage.rs`,
`src/error.rs` and `src/serde.rs`.  The Rust type `BitMask<T>` is generic over
a storage word `T` of bit width `W = T::SIZE`; here a word is a `Nat` together
with the convention that a well-formed word is `< 2 ^ W`, and every operation
takes the width `W` as an explicit parameter.  Machine-word complement `!x`
becomes XOR with the all-ones word `2 ^ W - 1`.
-/

namespace NBitMask

/-- Embeds `enum BitMaskError` from `src/error.rs`. -/
inductive BitMaskError where
  | IndexOutOfBounds
  | DeserializationFailed
deriving DecidableEq, Repr

/-- Embeds `struct BitMask<T> { mask: Vec<T>, size: usize }` from `src/lib.rs`
(the field is named `length` in `src/serde.rs`; both name the logical bit
count). Words are `Nat`s, least-significant word first. -/
structure BitMask where
  mask : List Nat
  size : Nat
deriving DecidableEq, Repr

/-- Bitwise complement of a `W`-bit word: Rust `!x` on `uW`. -/
def notW (W x : Nat) : Nat := (2 ^ W - 1) ^^^ x

/-- Embeds `BitMask::zeros(size)`: `size / W + 1` words of `ZERO`. -/
def zeros (W size : Nat) : BitMask :=
  { mask := List.replicate (size / W + 1) 0, size := size }

/-- Embeds `BitMask::set_all(value)`: fill every word with `!ZERO` or `ZERO`, then
AND the word at index `size / W` (when it exists; `List.set` is the identity
out of range, matching `get_mut` returning `None`) with the tail mask
`(ONE << (size % W)) - ONE`. -/
def set_all (W : Nat) (m : BitMask) (value : Bool) : BitMask :=
  let s := if value then notW W 0 else 0
  let filled := m.mask.map (fun _ => s)
  let lastIdx := m.size / W
  { mask := filled.set lastIdx ((filled.getD lastIdx 0 &&& ((1 <<< (m.size % W)) - 1))),
    size := m.size }

/-- Embeds `BitMask::ones(size)`: `zeros` then `set_all(true)`. -/
def ones (W size : Nat) : BitMask := set_all W (zeros W size) true

/-- Population count of a `Nat`, the semantics of the primitive
`count_ones` capability of `BitStorage` (`src/bit_storage.rs`). -/
def popCount : Nat → Nat
  | 0 => 0
  | n + 1 => (n + 1) % 2 + popCount ((n + 1) / 2)

/-- Embeds `BitMask::count_ones`: sum of per-word population counts. -/
def count_ones (m : BitMask) : Nat := (m.mask.map popCount).sum

/-- Embeds `BitMask::set(index, value)`: word index `index / W`, offset `index % W`;
OR in `ONE << offset` or AND with `!(ONE << offset)` when the word exists,
`IndexOutOfBounds` otherwise. -/
def set (W : Nat) (m : BitMask) (index : Nat) (value : Bool) :
    Except BitMaskError BitMask :=
  let i := index / W
  let offset := index % W
  match m.mask[i]? with
  | some w =>
      let w2 := if value then w ||| (1 <<< offset)
                else w &&& notW W (1 <<< offset)
      Except.ok { m with mask := m.mask.set i w2 }
  | none => Except.error BitMaskError.IndexOutOfBounds

/-- Embeds `BitMask::get(index)`: `(word >> offset) & ONE == ONE` when the word
exists, `IndexOutOfBounds` otherwise. -/
def get (W : Nat) (m : BitMask) (index : Nat) : Except BitMaskError Bool :=
  let i := index / W
  let offset := index % W
  match m.mask[i]? with
  | some w => Except.ok (decide ((w >>> offset) &&& 1 = 1))
  | none => Except.error BitMaskError.IndexOutOfBounds

/-- Embeds `BitOrAssign for BitMask` (`|=`): resize the left word vector to the
larger of the two word counts (growing with `ZERO`), take the larger size,
then OR every word position with the right word or implicit `ZERO`. -/
def bitor_assign (a b : BitMask) : BitMask :=
  let len := max a.mask.length b.mask.length
  let resized := a.mask ++ List.replicate (len - a.mask.length) 0
  { mask := (List.range len).map (fun i => resized.getD i 0 ||| b.mask.getD i 0),
    size := max a.size b.size }

/-- Embeds `BitAnd for BitMask` (`&`): a fresh `zeros(max size)` result whose every
word position is the AND of the two operand words, a missing word read as
`ZERO`. -/
def bitand (W : Nat) (a b : BitMask) : BitMask :=
  let res := zeros W (max a.size b.size)
  { mask := (List.range res.mask.length).map
      (fun i => a.mask.getD i 0 &&& b.mask.getD i 0),
    size := res.size }

/-- Embeds `BitAndAssign for BitMask` (`&=`): AND each existing left word with the
right word at the same position or implicit `ZERO`; the word vector is never
grown and `size` is untouched. -/
def bitand_assign (a b : BitMask) : BitMask :=
  { mask := (List.range a.mask.length).map
      (fun i => a.mask.getD i 0 &&& b.mask.getD i 0),
    size := a.size }

/-- The `k` binary digits of `w`, most significant first: the data part of
Rust `format!("{:#0w$b}", m, w = W + 2)` (the `0b` prefix dropped) for a
`W`-bit word. -/
def toBinDigits : Nat → Nat → List Char
  | 0, _ => []
  | k + 1, w => toBinDigits k (w / 2) ++ [if w % 2 = 1 then '1' else '0']

/-- The loop body of `Display for BitMask`: for each word, with `rem` bits
still to print, keep the last `min rem W` characters of the word's padded
binary string (the slice `[(W + 2 - size)..]`) and reverse them. -/
def displayGo (W : Nat) : List Nat → Int → List Char
  | [], _ => []
  | w :: rest, rem =>
      let sz := (min rem (W : Int)).toNat
      ((toBinDigits W w).drop (W - sz)).reverse ++ displayGo W rest (rem - (W : Int))

/-- Embeds `Display for BitMask`: the rendered character sequence. -/
def displayChars (W : Nat) (m : BitMask) : List Char :=
  displayGo W m.mask (m.size : Int)

/-- Modelled from the spec: `Shr` for `BitMask` (`shift_right`) is absent
from `src/` (only `tests/lib.rs` exercises it).  Spec section 4.8: destination
word `i` is source word `i + n / W` shifted right by `n % W`, OR-combined
with source word `i + n / W + 1` shifted left by `W - n % W` (truncated to
word width), the carry term special-cased to `ZERO` when `n % W == 0`;
missing source words contribute `ZERO`; the length is unchanged. -/
def shift_right (W : Nat) (m : BitMask) (n : Nat) : BitMask :=
  let d := n / W
  let r := n % W
  { mask := (List.range m.mask.length).map (fun i =>
      let lo := (m.mask.getD (i + d) 0) >>> r
      let hi := if r = 0 then 0 else ((m.mask.getD (i + d + 1) 0) <<< (W - r)) % 2 ^ W
      lo ||| hi),
    size := m.size }

/-- Embeds `to_be_bytes` of a `k`-byte storage word (`src/bit_storage.rs`):
`k` bytes, big-endian. -/
def toBEBytes : Nat → Nat → List Nat
  | 0, _ => []
  | k + 1, w => toBEBytes k (w / 256) ++ [w % 256]

/-- Big-endian byte-list decoding, the value computed by
`from_be_bytes` once the length check has passed. -/
def fromBEBytes (bs : List Nat) : Nat :=
  bs.foldl (fun acc b => acc * 256 + b) 0

/-- Embeds `from_be_bytes` of a `k`-byte storage word (`src/bit_storage.rs`):
fails with `DeserializationFailed` unless exactly `k` bytes are given. -/
def from_be_bytes (k : Nat) (bs : List Nat) : Except BitMaskError Nat :=
  if bs.length = k then Except.ok (fromBEBytes bs)
  else Except.error BitMaskError.DeserializationFailed

/-- Rust `slice::chunks(k)`: slices of `k` elements, the last one possibly
shorter.  `k = 0` panics in Rust and never occurs here (`k = W / 8 ≥ 1`). -/
def chunks : Nat → List Nat → List (List Nat)
  | _, [] => []
  | 0, _ :: _ => []
  | k + 1, a :: rest => ((a :: rest).take (k + 1)) :: chunks (k + 1) (rest.drop k)
termination_by _ l => l.length
decreasing_by
  simp only [List.length_drop, List.length_cons]
  omega

/-- Embeds `collect::<Result<Vec<T>, BitMaskError>>()`: first error wins. -/
def collectExcept : List (Except BitMaskError Nat) → Except BitMaskError (List Nat)
  | [] => Except.ok []
  | x :: rest =>
      match x with
      | Except.ok v =>
          match collectExcept rest with
          | Except.ok vs => Except.ok (v :: vs)
          | Except.error e => Except.error e
      | Except.error e => Except.error e

/-- Embeds `struct BitMaskSerializable` from `src/serde.rs`, with the base-64 text
kept as the byte list it reversibly encodes. -/
structure BitMaskSerializable where
  mask : List Nat
  length : Nat
deriving DecidableEq, Repr

/-- Embeds `From<&BitMask<T>> for BitMaskSerializable`: concatenate every word's
big-endian bytes in word order and record the length; `k = W / 8` is the
byte width of a word. -/
def toSerializable (k : Nat) (m : BitMask) : BitMaskSerializable :=
  { mask := (m.mask.map (toBEBytes k)).flatten, length := m.size }

/-- Embeds `TryFrom<BitMaskSerializable> for BitMask`: re-chunk the decoded bytes
into `k`-byte groups, parse each big-endian, and restore the recorded
length; no consistency check between word count and length. -/
def fromSerializable (k : Nat) (v : BitMaskSerializable) :
    Except BitMaskError BitMask :=
  match collectExcept ((chunks k v.mask).map (from_be_bytes k)) with
  | Except.ok ws => Except.ok { mask := ws, size := v.length }
  | Except.error e => Except.error e

/-- Modelled from the spec: `BitXorAssign for BitMask` (`^=`) is absent from
`src/` (only `tests/lib.rs` exercises it).  Spec section 4.7: XOR-assign
first grows the left word sequence (zero-extending) to match the longer
operand and updates `length` to the max, then XORs every word position with
the right word or implicit `ZERO` — the structural mirror of `|=`. -/
def bitxor_assign (a b : BitMask) : BitMask :=
  let len := max a.mask.length b.mask.length
  let resized := a.mask ++ List.replicate (len - a.mask.length) 0
  { mask := (List.range len).map (fun i => resized.getD i 0 ^^^ b.mask.getD i 0),
    size := max a.size b.size }

/-- Masks reachable through the public constructors `zeros`/`ones` followed
by any sequence of `set`, `set_all` and the compound-assignment operators
`|=`, `&=`, `^=` (with reachable right operands). -/
inductive Reachable (W : Nat) : BitMask → Prop where
  | fromZeros (size : Nat) : Reachable W (zeros W size)
  | fromOnes (size : Nat) : Reachable W (ones W size)
  | stepSet {m m' : BitMask} (i : Nat) (v : Bool) :
      Reachable W m → set W m i v = Except.ok m' → Reachable W m'
  | stepSetAll {m : BitMask} (v : Bool) :
      Reachable W m → Reachable W (set_all W m v)
  | stepOrAssign {a b : BitMask} :
      Reachable W a → Reachable W b → Reachable W (bitor_assign a b)
  | stepAndAssign {a b : BitMask} :
      Reachable W a → Reachable W b → Reachable W (bitand_assign a b)
  | stepXorAssign {a b : BitMask} :
      Reachable W a → Reachable W b → Reachable W (bitxor_assign a b)

/-! ### Helper lemmas -/

lemma popCount_two_mul_add_one (m : Nat) : popCount (2 * m + 1) = 1 + popCount m := by
  rw [popCount]
  · congr 1
    · omega
    · congr 1
      omega

lemma popCount_two_pow_sub_one (k : Nat) : popCount (2 ^ k - 1) = k := by
  induction k with
  | zero =>
      norm_num
      simp [popCount]
  | succ k ih =>
      have h1 : 1 ≤ 2 ^ k := Nat.one_le_two_pow
      have h2 : 2 ^ (k + 1) - 1 = 2 * (2 ^ k - 1) + 1 := by
        rw [pow_succ]
        omega
      rw [h2, popCount_two_mul_add_one, ih]
      omega

lemma two_pow_sub_one_mod_two_pow {o n : Nat} (h : o ≤ n) :
    (2 ^ n - 1) % 2 ^ o = 2 ^ o - 1 := by
  have hA : 1 ≤ 2 ^ (n - o) := Nat.one_le_two_pow
  have hB : 1 ≤ 2 ^ o := Nat.one_le_two_pow
  have h1 : 2 ^ n = 2 ^ (n - o) * 2 ^ o := by
    rw [← pow_add]
    congr 1
    omega
  have hAB : 2 ^ o ≤ 2 ^ (n - o) * 2 ^ o := Nat.le_mul_of_pos_left _ (by omega)
  have h2 : 2 ^ n - 1 = (2 ^ o - 1) + (2 ^ (n - o) - 1) * 2 ^ o := by
    rw [h1, Nat.sub_one_mul]
    omega
  rw [h2, Nat.add_mul_mod_self_right]
  exact Nat.mod_eq_of_lt (by omega)

lemma sum_popCount_replicate_set (n : Nat) (a b : Nat) :
    ((((List.replicate (n + 1) a).set n b).map popCount).sum) = n * popCount a + popCount b := by
  induction n with
  | zero => simp
  | succ n ih =>
      rw [List.replicate_succ, List.set_cons_succ, List.map_cons, List.sum_cons, ih]
      ring

/-- The word list of `ones W size`: full words, the last one cut by the
tail mask. -/
lemma ones_mask_eq (W size : Nat) (hW : 0 < W) :
    (ones W size).mask =
      (List.replicate (size / W + 1) (2 ^ W - 1)).set (size / W) (2 ^ (size % W) - 1) := by
  have ho : size % W < W := Nat.mod_lt _ hW
  have hnot : notW W 0 = 2 ^ W - 1 := by simp [notW]
  have hget : (List.replicate (size / W + 1) (notW W 0)).getD (size / W) 0 = 2 ^ W - 1 := by
    rw [List.getD_eq_getElem _ _ (by simp), List.getElem_replicate, hnot]
  have htm : (2 ^ W - 1) &&& (1 <<< (size % W)) - 1 = 2 ^ (size % W) - 1 := by
    rw [Nat.shiftLeft_eq, one_mul, Nat.and_pow_two_sub_one_eq_mod,
      two_pow_sub_one_mod_two_pow (Nat.le_of_lt ho)]
  simp only [ones, set_all, zeros, List.map_replicate, if_true]
  rw [hget, htm, hnot]

lemma ones_size (W size : Nat) : (ones W size).size = size := rfl

/-- Computes `count_ones` of `ones W size` as `size` (tail padding is zeroed). -/
lemma count_ones_ones (W size : Nat) (hW : 0 < W) :
    count_ones (ones W size) = size := by
  rw [count_ones, ones_mask_eq W size hW, sum_popCount_replicate_set,
    popCount_two_pow_sub_one, popCount_two_pow_sub_one, Nat.mul_comm]
  exact Nat.div_add_mod size W

lemma decide_shift_and_one (w o : Nat) :
    decide ((w >>> o) &&& 1 = 1) = Nat.testBit w o := by
  rw [Nat.testBit_to_div_mod, Nat.and_one_is_mod, Nat.shiftRight_eq_div_pow]

/-- Applying `set` at a word index inside the allocated vector succeeds and updates
that word. -/
lemma set_eq_ok (W : Nat) (m : BitMask) (index : Nat) (value : Bool)
    (hi : index / W < m.mask.length) :
    set W m index value =
      Except.ok ⟨m.mask.set (index / W)
          (if value then m.mask.getD (index / W) 0 ||| (1 <<< (index % W))
           else m.mask.getD (index / W) 0 &&& notW W (1 <<< (index % W))),
        m.size⟩ := by
  have hlook := List.getElem?_eq_getElem hi
  simp only [set, hlook]
  rw [List.getD_eq_getElem _ _ hi]

/-- Applying `get` at a word index inside the allocated vector reads the word's bit. -/
lemma get_eq_testBit (W : Nat) (m : BitMask) (index : Nat)
    (hi : index / W < m.mask.length) :
    get W m index = Except.ok (Nat.testBit (m.mask.getD (index / W) 0) (index % W)) := by
  have hlook := List.getElem?_eq_getElem hi
  simp only [get, hlook]
  rw [List.getD_eq_getElem _ _ hi, decide_shift_and_one]

/-! ### Claims -/

/-- C1: the spec says `get`/`set` fail with `IndexOutOfBounds` exactly when
`index >= length`, and the repository's own test (`tests/lib.rs`,
`test_get_set_error`) asserts `set(4, _)` and `get(4)` fail on a
`BitMask::<u8>::zeros(4)`.  The code in `src/lib.rs` checks only the word
index `index / W` against the allocated word count, so on that very input
`get 4` returns `Ok(false)` and `set 4` returns `Ok`. -/
theorem claim1_weak_bounds_check_eval :
    get 8 (zeros 8 4) 4 = Except.ok false ∧
    set 8 (zeros 8 4) 4 false = Except.ok (zeros 8 4) ∧
    (zeros 8 4).size ≤ 4 := by
  refine ⟨rfl, rfl, by decide⟩

/-- C9: in-place AND assignment leaves the left operand's logical size and
its word-sequence length unchanged, for every right operand. -/
theorem claim9_and_assign_frame (a b : BitMask) :
    (bitand_assign a b).size = a.size ∧
    (bitand_assign a b).mask.length = a.mask.length := by
  refine ⟨rfl, ?_⟩
  simp [bitand_assign]

/-- C4: for every word width and size, `ones(size).count_ones() == size`:
`set_all(true)` fills every word with all-ones and then ANDs the word at
index `size / W` with the tail mask `(ONE << (size % W)) - ONE`, so the sum
of per-word popcounts equals `size`. -/
theorem claim4_ones_count_ones (W size : Nat) (hW : 0 < W) :
    count_ones (ones W size) = size :=
  count_ones_ones W size hW

/-- Witness for C4 at `W = 8`, `size = 14`. -/
theorem claim4_witness : count_ones (ones 8 14) = 14 :=
  claim4_ones_count_ones 8 14 (by decide)

/-- C3: on a well-formed mask (word count `size / W + 1`), for every index
below the logical size, `set(index, true)` succeeds and a subsequent
`get(index)` returns `true`, and `set(index, false)` succeeds and a
subsequent `get(index)` returns `false`. -/
theorem claim3_set_then_get (W : Nat) (m : BitMask) (index : Nat)
    (hW : 0 < W) (hlen : m.mask.length = m.size / W + 1) (hidx : index < m.size) :
    (∃ m2, set W m index true = Except.ok m2 ∧ get W m2 index = Except.ok true) ∧
    (∃ m2, set W m index false = Except.ok m2 ∧ get W m2 index = Except.ok false) := by
  have ho : index % W < W := Nat.mod_lt _ hW
  have hi : index / W < m.mask.length := by
    rw [hlen]
    exact Nat.lt_succ_of_le (Nat.div_le_div_right (Nat.le_of_lt hidx))
  constructor
  · refine ⟨_, set_eq_ok W m index true hi, ?_⟩
    have hi2 : index / W < (m.mask.set (index / W)
        (m.mask.getD (index / W) 0 ||| (1 <<< (index % W)))).length := by
      rw [List.length_set]
      exact hi
    rw [if_pos rfl, get_eq_testBit W _ index hi2]
    congr 1
    rw [List.getD_eq_getElem _ _ hi2, List.getElem_set_self]
    simp [Nat.testBit_shiftLeft, Nat.testBit_one_zero]
  · refine ⟨_, set_eq_ok W m index false hi, ?_⟩
    have hi2 : index / W < (m.mask.set (index / W)
        (m.mask.getD (index / W) 0 &&& notW W (1 <<< (index % W)))).length := by
      rw [List.length_set]
      exact hi
    rw [if_neg (by simp), get_eq_testBit W _ index hi2]
    congr 1
    rw [List.getD_eq_getElem _ _ hi2, List.getElem_set_self]
    simp [notW, Nat.testBit_shiftLeft, Nat.testBit_one_zero, ho]

/-- Witness for C3 at `W = 8`, `m = zeros 8 5`, `index = 1`. -/
theorem claim3_witness :
    (∃ m2, set 8 (zeros 8 5) 1 true = Except.ok m2 ∧
      get 8 m2 1 = Except.ok true) ∧
    (∃ m2, set 8 (zeros 8 5) 1 false = Except.ok m2 ∧
      get 8 m2 1 = Except.ok false) :=
  claim3_set_then_get 8 (zeros 8 5) 1 (by decide) (by decide) (by decide)

/-- C6: for a well-formed mask (word count `size / W + 1`, words in range,
tail padding zero), AND-ing with `ones` of the same length is the
identity. -/
theorem claim6_and_ones_identity (W : Nat) (m : BitMask) (hW : 0 < W)
    (hlen : m.mask.length = m.size / W + 1)
    (hwords : ∀ w ∈ m.mask, w < 2 ^ W)
    (htail : m.mask.getD (m.size / W) 0 < 2 ^ (m.size % W)) :
    bitand W m (ones W m.size) = m := by
  obtain ⟨ws, s⟩ := m
  simp only [BitMask.mask, BitMask.size] at hlen hwords htail
  simp only [bitand, zeros, ones_size, max_self, List.length_replicate]
  congr 1
  apply List.ext_getElem
  · simp [hlen]
  · intro i h1 h2
    have hiW : i < s / W + 1 := by simpa using h1
    rw [List.getElem_map, List.getElem_range, ones_mask_eq W s hW]
    have hset : s / W < ((List.replicate (s / W + 1) (2 ^ W - 1)).set (s / W)
        (2 ^ (s % W) - 1)).length := by simp
    by_cases hi : i = s / W
    · subst hi
      rw [List.getD_eq_getElem _ _ hset, List.getElem_set_self,
        Nat.and_pow_two_sub_one_eq_mod, List.getD_eq_getElem _ _ h2]
      rw [List.getD_eq_getElem _ _ h2] at htail
      exact Nat.mod_eq_of_lt htail
    · have hset2 : i < ((List.replicate (s / W + 1) (2 ^ W - 1)).set (s / W)
          (2 ^ (s % W) - 1)).length := by simpa using hiW
      rw [List.getD_eq_getElem _ _ hset2, List.getElem_set_ne (fun h => hi h.symm),
        List.getElem_replicate, Nat.and_pow_two_sub_one_eq_mod,
        List.getD_eq_getElem _ _ h2]
      exact Nat.mod_eq_of_lt (hwords _ (List.getElem_mem h2))

/-- Witness for C6 at `W = 8`, `m = ones 8 3`. -/
theorem claim6_witness : bitand 8 (ones 8 3) (ones 8 (ones 8 3).size) = ones 8 3 :=
  claim6_and_ones_identity 8 (ones 8 3) (by decide) (by decide) (by decide) (by decide)

lemma max_div_succ (x y Wd : Nat) :
    max (x / Wd + 1) (y / Wd + 1) = max x y / Wd + 1 := by
  rcases Nat.le_total x y with h | h
  · rw [Nat.max_eq_right h,
      Nat.max_eq_right (Nat.succ_le_succ (Nat.div_le_div_right h))]
  · rw [Nat.max_eq_left h,
      Nat.max_eq_left (Nat.succ_le_succ (Nat.div_le_div_right h))]

/-- C2 (counterexample to the claim as stated): deserializing the transport
record with two zero bytes and recorded length `0` at word width `W = 8`
(`k = W / 8 = 1`) succeeds and yields a mask whose word count `2` differs
from `length / W + 1 = 1`, so a mask reachable via deserialization need not
satisfy the storage invariant. -/
theorem claim2_counterexample :
    fromSerializable 1 { mask := [0, 0], length := 0 } =
      Except.ok { mask := [0, 0], size := 0 } ∧
    ¬ (([0, 0] : List Nat).length = 0 / 8 + 1) := by
  constructor
  · simp [fromSerializable, chunks, collectExcept, from_be_bytes, fromBEBytes]
  · decide

/-- C2 (amended): every mask built by `zeros`/`ones` and transformed by any
sequence of `set`, `set_all` and the compound-assignment operators `|=`,
`&=`, `^=` (with reachable right operands) has word count exactly
`size / W + 1`; deserialization is excluded, since it re-checks nothing
(see C10). -/
theorem claim2_storage_invariant (W : Nat) (m : BitMask) (hW : 0 < W)
    (h : Reachable W m) : m.mask.length = m.size / W + 1 := by
  induction h with
  | fromZeros size => simp [zeros]
  | fromOnes size => simp [ones, set_all, zeros]
  | stepSet i v hm hset ih =>
      rename_i m m'
      rcases hlook : m.mask[i / W]? with _ | w
      · rw [set] at hset
        rw [hlook] at hset
        cases hset
      · rw [set] at hset
        rw [hlook] at hset
        simp only [Except.ok.injEq] at hset
        subst hset
        simpa using ih
  | stepSetAll v hm ih =>
      simpa [set_all] using ih
  | stepOrAssign ha hb iha ihb =>
      rename_i a b
      simp only [bitor_assign, List.length_map, List.length_range]
      rw [iha, ihb]
      exact max_div_succ a.size b.size W
  | stepAndAssign ha hb iha ihb =>
      simpa [bitand_assign] using iha
  | stepXorAssign ha hb iha ihb =>
      rename_i a b
      simp only [bitxor_assign, List.length_map, List.length_range]
      rw [iha, ihb]
      exact max_div_succ a.size b.size W

/-- Witness for the amended C2 at `W = 8`, `m = ones 8 3`. -/
theorem claim2_witness : (ones 8 3).mask.length = (ones 8 3).size / 8 + 1 :=
  claim2_storage_invariant 8 (ones 8 3) (by decide) (Reachable.fromOnes 3)

/-- C8: for a well-formed mask, a right shift by an amount at or beyond the
total bit capacity `words.len() * W` yields `zeros` of the unchanged
length: every destination word pulls only from beyond the word sequence. -/
theorem claim8_shift_right_capacity (W : Nat) (m : BitMask) (n : Nat)
    (hW : 0 < W) (hlen : m.mask.length = m.size / W + 1)
    (hn : m.mask.length * W ≤ n) :
    shift_right W m n = zeros W m.size := by
  have hd : m.mask.length ≤ n / W := (Nat.le_div_iff_mul_le hW).mpr hn
  obtain ⟨ws, s⟩ := m
  simp only [BitMask.mask, BitMask.size] at hlen hd
  simp only [shift_right, zeros]
  congr 1
  rw [List.eq_replicate_iff]
  constructor
  · simp [hlen]
  · intro b hb
    rcases List.mem_map.mp hb with ⟨i, hi, hfi⟩
    have h1 : ws.getD (i + n / W) 0 = 0 :=
      List.getD_eq_default _ _ (Nat.le_trans hd (Nat.le_add_left _ _))
    have h2 : ws.getD (i + n / W + 1) 0 = 0 :=
      List.getD_eq_default _ _ (Nat.le_trans hd (by omega))
    rw [← hfi]
    simp only [h1, h2, Nat.zero_shiftRight, Nat.zero_shiftLeft, Nat.zero_mod]
    rcases Nat.eq_zero_or_pos (n % W) with hr | hr
    · simp [hr]
    · simp [Nat.pos_iff_ne_zero.mp hr]

/-- Witness for C8 at `W = 8`, `m = ones 8 40` (6 words, capacity 48),
`n = 50`, matching `test_shr` in `tests/lib.rs`. -/
theorem claim8_witness : shift_right 8 (ones 8 40) 50 = zeros 8 40 :=
  claim8_shift_right_capacity 8 (ones 8 40) 50 (by decide) (by decide) (by decide)

lemma chunks_cons (k : Nat) (hk : 0 < k) (l : List Nat) (hl : l ≠ []) :
    chunks k l = l.take k :: chunks k (l.drop k) := by
  match k, l with
  | 0, _ => omega
  | k + 1, [] => exact absurd rfl hl
  | k + 1, a :: rest =>
      rw [chunks, List.drop_succ_cons]

/-- On a byte stream whose length is a multiple of `k`, every chunk has
exactly `k` bytes and `collect` succeeds with the big-endian value of each
chunk. -/
lemma collect_chunks_dvd (k : Nat) (hk : 0 < k) :
    ∀ fuel l, l.length ≤ fuel → k ∣ l.length →
      collectExcept ((chunks k l).map (from_be_bytes k)) =
        Except.ok ((chunks k l).map fromBEBytes) := by
  intro fuel
  induction fuel with
  | zero =>
      intro l hfuel _
      have : l = [] := List.eq_nil_of_length_eq_zero (Nat.le_zero.mp hfuel)
      subst this
      simp [chunks, collectExcept]
  | succ fuel ih =>
      intro l hfuel hdvd
      rcases List.eq_nil_or_concat l with rfl | _
      · simp [chunks, collectExcept]
      · have hne : l ≠ [] := by
          rintro rfl
          simp at *
        have hlen : k ≤ l.length := by
          rcases hdvd with ⟨c, hc⟩
          rcases Nat.eq_zero_or_pos c with rfl | hcpos
          · simp at hc
            exact absurd hc hne
          · calc k = k * 1 := by omega
              _ ≤ k * c := Nat.mul_le_mul_left _ hcpos
              _ = l.length := hc.symm
        rw [chunks_cons k hk l hne, List.map_cons, List.map_cons]
        have htake : (l.take k).length = k := by
          rw [List.length_take]
          omega
        have hdrop : k ∣ (l.drop k).length := by
          rw [List.length_drop]
          rcases hdvd with ⟨c, hc⟩
          exact ⟨c - 1, by rw [hc, Nat.mul_sub_one]⟩
        have hrec := ih (l.drop k) (by simp [List.length_drop]; omega) hdrop
        rw [from_be_bytes, if_pos htake]
        simp only [collectExcept, hrec]

/-- C10: deserialization performs no consistency check between word count
and recorded length: any transport record whose byte count is a multiple of
`k = W / 8` reconstructs successfully into a mask holding exactly the
decoded words and the recorded length, whatever their relation. -/
theorem claim10_no_consistency_check (k : Nat) (bytes : List Nat) (len : Nat)
    (hk : 0 < k) (hb : k ∣ bytes.length) :
    fromSerializable k { mask := bytes, length := len } =
      Except.ok { mask := (chunks k bytes).map fromBEBytes, size := len } := by
  rw [fromSerializable]
  rw [collect_chunks_dvd k hk bytes.length bytes (Nat.le_refl _) hb]

/-- Witness for C10: two zero bytes with recorded length `0` at `W = 8`
deserialize into a two-word mask although `length / W + 1 = 1`. -/
theorem claim10_witness :
    fromSerializable 1 { mask := [0, 0], length := 0 } =
      Except.ok { mask := (chunks 1 [0, 0]).map fromBEBytes, size := 0 } ∧
    ((chunks 1 [0, 0]).map fromBEBytes).length ≠ 0 / 8 + 1 := by
  refine ⟨claim10_no_consistency_check 1 [0, 0] 0 (by decide) (by decide), ?_⟩
  simp [chunks]

lemma length_toBEBytes (k : Nat) : ∀ w, (toBEBytes k w).length = k := by
  induction k with
  | zero => intro w; rfl
  | succ k ih => intro w; simp [toBEBytes, ih]

lemma fromBEBytes_append_singleton (bs : List Nat) (b : Nat) :
    fromBEBytes (bs ++ [b]) = fromBEBytes bs * 256 + b := by
  rw [fromBEBytes, fromBEBytes, List.foldl_append]
  rfl

lemma fromBEBytes_toBEBytes (k : Nat) : ∀ w, w < 256 ^ k →
    fromBEBytes (toBEBytes k w) = w := by
  induction k with
  | zero =>
      intro w hw
      rw [pow_zero] at hw
      interval_cases w
      rfl
  | succ k ih =>
      intro w hw
      have hdiv : w / 256 < 256 ^ k := by
        apply Nat.div_lt_of_lt_mul
        rw [pow_succ] at hw
        omega
      rw [toBEBytes, fromBEBytes_append_singleton, ih (w / 256) hdiv]
      omega

/-- Decoding the concatenated big-endian bytes of a word list recovers the
word list, for words within range. -/
lemma collect_chunks_flatten (k : Nat) (hk : 0 < k) :
    ∀ ws : List Nat, (∀ w ∈ ws, w < 256 ^ k) →
      collectExcept
          ((chunks k ((ws.map (toBEBytes k)).flatten)).map (from_be_bytes k)) =
        Except.ok ws := by
  intro ws
  induction ws with
  | nil =>
      intro _
      simp [chunks, collectExcept]
  | cons w rest ih =>
      intro hws
      have hlenw : (toBEBytes k w).length = k := length_toBEBytes k w
      have hne : toBEBytes k w ++ ((rest.map (toBEBytes k)).flatten) ≠ [] := by
        intro h
        have h2 := congrArg List.length h
        simp [hlenw] at h2
        omega
      rw [List.map_cons, List.flatten_cons, chunks_cons k hk _ hne,
        List.take_left' hlenw, List.drop_left' hlenw, List.map_cons]
      rw [from_be_bytes, if_pos hlenw,
        fromBEBytes_toBEBytes k w (hws w (by simp))]
      simp only [collectExcept, ih (fun x hx => hws x (by simp [hx]))]

/-- C5: serialization concatenates each word's big-endian bytes in word
order with the length; deserialization re-chunks into `k = W / 8`-byte
groups, rebuilds each word big-endian, and restores the recorded length;
the round trip is the identity on masks whose words fit the word width. -/
theorem claim5_serde_round_trip (k : Nat) (m : BitMask) (hk : 0 < k)
    (hwords : ∀ w ∈ m.mask, w < 256 ^ k) :
    fromSerializable k (toSerializable k m) = Except.ok m := by
  rw [toSerializable, fromSerializable]
  rw [collect_chunks_flatten k hk m.mask hwords]

/-- Witness for C5 at `W = 64` (`k = 8`) on the mask of the repository's
`test_serde_json` (word `265`, length `10`). -/
theorem claim5_witness :
    fromSerializable 8 (toSerializable 8 { mask := [265], size := 10 }) =
      Except.ok { mask := [265], size := 10 } :=
  claim5_serde_round_trip 8 { mask := [265], size := 10 } (by decide) (by decide)

lemma length_toBinDigits (k : Nat) : ∀ w, (toBinDigits k w).length = k := by
  induction k with
  | zero => intro w; rfl
  | succ k ih => intro w; simp [toBinDigits, ih]

/-- Reversing the most-significant-first digit string lists the low `k`
bits in bit order. -/
lemma reverse_toBinDigits (k : Nat) : ∀ w,
    (toBinDigits k w).reverse =
      (List.range k).map (fun j => if Nat.testBit w j then '1' else '0') := by
  induction k with
  | zero => intro w; rfl
  | succ k ih =>
      intro w
      rw [toBinDigits, List.reverse_append, List.reverse_singleton,
        List.range_succ_eq_map, List.map_cons, List.map_map, List.singleton_append]
      congr 1
      · rw [Nat.testBit_zero]
        rcases Nat.mod_two_eq_zero_or_one w with h | h <;> simp [h]
      · rw [ih (w / 2)]
        apply List.map_congr_left
        intro j hj
        simp only [Function.comp_apply, Nat.testBit_succ]

/-- The `Display` loop prints, for each logical bit index in order, the
corresponding word bit. -/
lemma displayGo_spec (W : Nat) (hW : 0 < W) :
    ∀ (ws : List Nat) (s : Nat), ws.length = s / W + 1 →
      displayGo W ws (s : Int) =
        (List.range s).map
          (fun j => if Nat.testBit (ws.getD (j / W) 0) (j % W) then '1' else '0') := by
  intro ws
  induction ws with
  | nil =>
      intro s hlen
      simp at hlen
  | cons w rest ih =>
      intro s hlen
      simp only [List.length_cons] at hlen
      have hrest : rest.length = s / W := by omega
      by_cases hsW : s < W
      · have hdiv : s / W = 0 := Nat.div_eq_of_lt hsW
        have hrestnil : rest = [] := by
          apply List.eq_nil_of_length_eq_zero
          omega
        subst hrestnil
        have hsz : (min (s : Int) (W : Int)).toNat = s := by omega
        simp only [displayGo, hsz, List.append_nil]
        rw [List.reverse_drop, length_toBinDigits, reverse_toBinDigits,
          ← List.map_take, List.take_range]
        have hWs : W - (W - s) = s := by omega
        have hmin : min (W - (W - s)) W = s := by omega
        rw [hmin]
        apply List.map_congr_left
        intro j hj
        have hjW : j < W := by
          have := List.mem_range.mp hj
          omega
        rw [Nat.div_eq_of_lt hjW, Nat.mod_eq_of_lt hjW, List.getD_cons_zero]
      · push_neg at hsW
        have ht : s - W + W = s := by omega
        have hsd : s / W = (s - W) / W + 1 := by
          conv_lhs => rw [← ht]
          rw [Nat.add_div_right _ hW]
        have hrest2 : rest.length = (s - W) / W + 1 := by
          rw [hrest, hsd]
        have hsz : (min (s : Int) (W : Int)).toNat = W := by omega
        have hrem : (s : Int) - (W : Int) = ((s - W : Nat) : Int) := by omega
        simp only [displayGo, hsz, hrem, Nat.sub_self, List.drop_zero]
        rw [reverse_toBinDigits, ih (s - W) hrest2]
        conv_rhs => rw [show s = W + (s - W) by omega]
        rw [List.range_add, List.map_append, List.map_map]
        congr 1
        · apply List.map_congr_left
          intro j hj
          have hjW : j < W := List.mem_range.mp hj
          rw [Nat.div_eq_of_lt hjW, Nat.mod_eq_of_lt hjW, List.getD_cons_zero]
        · apply List.map_congr_left
          intro j hj
          have h1 : (W + j) / W = j / W + 1 := by
            rw [Nat.add_comm W j, Nat.add_div_right _ hW]
          have h2 : (W + j) % W = j % W := Nat.add_mod_left W j
          simp only [Function.comp_apply, h1, h2, List.getD_cons_succ]

/-- C7: on a well-formed mask, rendering yields exactly `size` characters,
bit index 0 first, a '1' for each set word bit and a '0' for each clear
one, the last word truncated to the remaining bit count. -/
theorem claim7_display_bits (W : Nat) (m : BitMask) (hW : 0 < W)
    (hlen : m.mask.length = m.size / W + 1) :
    displayChars W m =
      (List.range m.size).map
        (fun j => if Nat.testBit (m.mask.getD (j / W) 0) (j % W) then '1' else '0') := by
  rw [displayChars]
  exact displayGo_spec W hW m.mask m.size hlen

/-- Witness for C7 at `W = 8`, `m = ones 8 3`. -/
theorem claim7_witness :
    displayChars 8 (ones 8 3) =
      (List.range (ones 8 3).size).map
        (fun j => if Nat.testBit ((ones 8 3).mask.getD (j / 8) 0) (j % 8)
          then '1' else '0') :=
  claim7_display_bits 8 (ones 8 3) (by decide) (by decide)

end NBitMask
